import Mathlib

/-!
Verification of the A* tile-pathfinding core of the Angular9-Astar-Tiles
repository.  The algorithm under study is `AStarTiles.findPath` in
`src/app/shared/libs/astar-tiles.ts` (shipped inside `app.component.ts`);
the `TileNode` and `Grid2D` helper classes are not part of the provided
sources, so their data is modelled from the specification (§3, §4.1):
a cell has static `reachable` and `costMultiplier` data, a grid has fixed
`numRows`/`numCols` and designated `startNode`/`targetNode` cells, and the
transient search fields (`g`, `h`, `f`, `parent`) live on the cells and are
mutated by the pathfinder.

All numeric quantities produced by the algorithm are of the form
`a + b·√2` with `a b : ℚ` (movement costs are `1` and `Math.SQRT2`,
scaled by rational multipliers), so the numeric domain is embedded as the
ring ℚ[√2] (`Rt2` below) with a decidable linear order that provably
agrees with the order of the real numbers.
-/

/-- An element `(a + b·√2) / (d+1)` of ℚ[√2], stored fraction-free with an
integer numerator pair and a positive denominator `d+1`.  Every `g`/`h`/`f`
value manipulated by the pathfinder lives in this ring. -/
structure Rt2 where
  a : ℤ
  b : ℤ
  d : ℕ
deriving DecidableEq, Repr

namespace Rt2

/-- The (always positive) denominator. -/
def den (x : Rt2) : ℕ := x.d + 1

theorem den_pos (x : Rt2) : 0 < x.den := Nat.succ_pos x.d

/-- Embedding of a rational number. -/
def ofRat (q : ℚ) : Rt2 := ⟨q.num, 0, q.den - 1⟩

/-- The constant `√2` (`Math.SQRT2` in the source). -/
def sqrt2 : Rt2 := ⟨0, 1, 0⟩

instance : Zero Rt2 := ⟨⟨0, 0, 0⟩⟩

instance : One Rt2 := ⟨⟨1, 0, 0⟩⟩

instance : Add Rt2 :=
  ⟨fun x y => ⟨x.a * y.den + y.a * x.den, x.b * y.den + y.b * x.den, x.den * y.den - 1⟩⟩

instance : Sub Rt2 :=
  ⟨fun x y => ⟨x.a * y.den - y.a * x.den, x.b * y.den - y.b * x.den, x.den * y.den - 1⟩⟩

instance : Mul Rt2 :=
  ⟨fun x y => ⟨x.a * y.a + 2 * (x.b * y.b), x.a * y.b + x.b * y.a, x.den * y.den - 1⟩⟩

/-- Decides `0 ≤ (a + b·√2)/(d+1)` by integer arithmetic (comparing squares
when the two numerator summands have opposite signs; the denominator is
positive and does not affect the sign). -/
def nonnegb (x : Rt2) : Bool :=
  if 0 ≤ x.a then
    (if 0 ≤ x.b then true else decide (2 * x.b ^ 2 ≤ x.a ^ 2))
  else
    (if 0 ≤ x.b then decide (x.a ^ 2 ≤ 2 * x.b ^ 2) else false)

/-- Decides `0 < (a + b·√2)/(d+1)` by integer arithmetic. -/
def posb (x : Rt2) : Bool :=
  if 0 ≤ x.a then
    (if 0 ≤ x.b then decide (0 < x.a ∨ 0 < x.b) else decide (2 * x.b ^ 2 < x.a ^ 2))
  else
    (if 0 ≤ x.b then decide (x.a ^ 2 < 2 * x.b ^ 2) else false)

instance : LE Rt2 := ⟨fun x y => (y - x).nonnegb = true⟩

instance : LT Rt2 := ⟨fun x y => (y - x).posb = true⟩

instance (x y : Rt2) : Decidable (x ≤ y) :=
  inferInstanceAs (Decidable ((y - x).nonnegb = true))

instance (x y : Rt2) : Decidable (x < y) :=
  inferInstanceAs (Decidable ((y - x).posb = true))

/-- Semantics of an element as a real number. -/
noncomputable def toReal (x : Rt2) : ℝ := ((x.a : ℝ) + (x.b : ℝ) * Real.sqrt 2) / (x.den : ℝ)

theorem den_cast_pos (x : Rt2) : (0 : ℝ) < (x.den : ℝ) := by
  exact_mod_cast den_pos x

theorem den_add (x y : Rt2) : (x + y).den = x.den * y.den := by
  show x.den * y.den - 1 + 1 = x.den * y.den
  have hx := den_pos x
  have hy := den_pos y
  have : 0 < x.den * y.den := Nat.mul_pos hx hy
  omega

theorem den_sub (x y : Rt2) : (x - y).den = x.den * y.den := by
  show x.den * y.den - 1 + 1 = x.den * y.den
  have : 0 < x.den * y.den := Nat.mul_pos (den_pos x) (den_pos y)
  omega

theorem den_mul (x y : Rt2) : (x * y).den = x.den * y.den := by
  show x.den * y.den - 1 + 1 = x.den * y.den
  have : 0 < x.den * y.den := Nat.mul_pos (den_pos x) (den_pos y)
  omega

theorem toReal_zero : (0 : Rt2).toReal = 0 := by
  show (((0:ℤ) : ℝ) + ((0:ℤ) : ℝ) * Real.sqrt 2) / (((0:ℕ) + 1 : ℕ) : ℝ) = 0
  norm_num

theorem toReal_one : (1 : Rt2).toReal = 1 := by
  show (((1:ℤ) : ℝ) + ((0:ℤ) : ℝ) * Real.sqrt 2) / (((0:ℕ) + 1 : ℕ) : ℝ) = 1
  norm_num

theorem toReal_ofRat (q : ℚ) : (ofRat q).toReal = (q : ℝ) := by
  have hden : ((ofRat q).den : ℝ) = (q.den : ℝ) := by
    show (((q.den - 1 : ℕ) + 1 : ℕ) : ℝ) = (q.den : ℝ)
    have := q.den_pos
    congr 1
    omega
  show ((q.num : ℝ) + ((0:ℤ) : ℝ) * Real.sqrt 2) / ((ofRat q).den : ℝ) = (q : ℝ)
  rw [hden, Rat.cast_def]
  norm_num

theorem toReal_sqrt2 : sqrt2.toReal = Real.sqrt 2 := by
  show (((0:ℤ) : ℝ) + ((1:ℤ) : ℝ) * Real.sqrt 2) / (((0:ℕ) + 1 : ℕ) : ℝ) = Real.sqrt 2
  norm_num

theorem toReal_add (x y : Rt2) : (x + y).toReal = x.toReal + y.toReal := by
  have hd : ((x + y).den : ℝ) = (x.den : ℝ) * (y.den : ℝ) := by
    rw [den_add]
    push_cast
    ring
  have ha : ((x + y).a : ℝ) = (x.a : ℝ) * (y.den : ℝ) + (y.a : ℝ) * (x.den : ℝ) := by
    show ((x.a * y.den + y.a * x.den : ℤ) : ℝ) = _
    push_cast
    ring
  have hb : ((x + y).b : ℝ) = (x.b : ℝ) * (y.den : ℝ) + (y.b : ℝ) * (x.den : ℝ) := by
    show ((x.b * y.den + y.b * x.den : ℤ) : ℝ) = _
    push_cast
    ring
  simp only [toReal, hd, ha, hb]
  have hx := den_cast_pos x
  have hy := den_cast_pos y
  field_simp
  ring

theorem toReal_sub (x y : Rt2) : (x - y).toReal = x.toReal - y.toReal := by
  have hd : ((x - y).den : ℝ) = (x.den : ℝ) * (y.den : ℝ) := by
    rw [den_sub]
    push_cast
    ring
  have ha : ((x - y).a : ℝ) = (x.a : ℝ) * (y.den : ℝ) - (y.a : ℝ) * (x.den : ℝ) := by
    show ((x.a * y.den - y.a * x.den : ℤ) : ℝ) = _
    push_cast
    ring
  have hb : ((x - y).b : ℝ) = (x.b : ℝ) * (y.den : ℝ) - (y.b : ℝ) * (x.den : ℝ) := by
    show ((x.b * y.den - y.b * x.den : ℤ) : ℝ) = _
    push_cast
    ring
  simp only [toReal, hd, ha, hb]
  have hx := den_cast_pos x
  have hy := den_cast_pos y
  field_simp
  ring

theorem sqrt2_sq : Real.sqrt 2 * Real.sqrt 2 = 2 :=
  Real.mul_self_sqrt (by norm_num)

theorem toReal_mul (x y : Rt2) : (x * y).toReal = x.toReal * y.toReal := by
  have hd : ((x * y).den : ℝ) = (x.den : ℝ) * (y.den : ℝ) := by
    rw [den_mul]
    push_cast
    ring
  have ha : ((x * y).a : ℝ) = (x.a : ℝ) * (y.a : ℝ) + 2 * ((x.b : ℝ) * (y.b : ℝ)) := by
    show ((x.a * y.a + 2 * (x.b * y.b) : ℤ) : ℝ) = _
    push_cast
    ring
  have hb : ((x * y).b : ℝ) = (x.a : ℝ) * (y.b : ℝ) + (x.b : ℝ) * (y.a : ℝ) := by
    show ((x.a * y.b + x.b * y.a : ℤ) : ℝ) = _
    push_cast
    ring
  simp only [toReal, hd, ha, hb]
  have hx := den_cast_pos x
  have hy := den_cast_pos y
  field_simp
  linear_combination (-((x.b : ℝ) * (y.b : ℝ))) * sqrt2_sq

theorem sqrt2_pos : (0 : ℝ) < Real.sqrt 2 :=
  Real.sqrt_pos.mpr (by norm_num)

theorem nonnegb_core (a b : ℤ) :
    (if 0 ≤ a then
      (if 0 ≤ b then true else decide (2 * b ^ 2 ≤ a ^ 2))
    else
      (if 0 ≤ b then decide (a ^ 2 ≤ 2 * b ^ 2) else false)) = true ↔
    0 ≤ (a : ℝ) + (b : ℝ) * Real.sqrt 2 := by
  have h2 := sqrt2_sq
  have hs : (0:ℝ) ≤ Real.sqrt 2 := le_of_lt sqrt2_pos
  split_ifs with ha hb hb
  · have ha' : (0:ℝ) ≤ (a:ℝ) := by exact_mod_cast ha
    have hb' : (0:ℝ) ≤ (b:ℝ) := by exact_mod_cast hb
    simp only [true_iff]
    have := mul_nonneg hb' hs
    linarith
  · push_neg at hb
    have ha' : (0:ℝ) ≤ (a:ℝ) := by exact_mod_cast ha
    have hb' : ((b:ℝ)) < 0 := by exact_mod_cast hb
    have hnb : (0:ℝ) ≤ (-(b:ℝ)) * Real.sqrt 2 := mul_nonneg (by linarith) hs
    have hiff := mul_self_le_mul_self_iff hnb ha'
    have hrw : ((-(b:ℝ)) * Real.sqrt 2) * ((-(b:ℝ)) * Real.sqrt 2) = 2 * (b:ℝ) ^ 2 := by
      have : ((-(b:ℝ)) * Real.sqrt 2) * ((-(b:ℝ)) * Real.sqrt 2)
          = ((b:ℝ) * (b:ℝ)) * (Real.sqrt 2 * Real.sqrt 2) := by ring
      rw [this, h2]
      ring
    simp only [decide_eq_true_eq]
    constructor
    · intro h
      have h' : 2 * (b:ℝ) ^ 2 ≤ (a:ℝ) ^ 2 := by exact_mod_cast h
      have hsq : ((-(b:ℝ)) * Real.sqrt 2) * ((-(b:ℝ)) * Real.sqrt 2) ≤ (a:ℝ) * (a:ℝ) := by
        rw [hrw]
        nlinarith [h']
      have key := hiff.mpr hsq
      linarith
    · intro h
      have key : (-(b:ℝ)) * Real.sqrt 2 ≤ (a:ℝ) := by linarith
      have hsq := hiff.mp key
      rw [hrw] at hsq
      have : 2 * (b:ℝ) ^ 2 ≤ (a:ℝ) ^ 2 := by nlinarith [hsq]
      exact_mod_cast this
  · push_neg at ha
    have ha' : ((a:ℝ)) < 0 := by exact_mod_cast ha
    have hb' : (0:ℝ) ≤ (b:ℝ) := by exact_mod_cast hb
    have hbs : (0:ℝ) ≤ (b:ℝ) * Real.sqrt 2 := mul_nonneg hb' hs
    have hiff := mul_self_le_mul_self_iff (show (0:ℝ) ≤ -(a:ℝ) by linarith) hbs
    have hrw : ((b:ℝ) * Real.sqrt 2) * ((b:ℝ) * Real.sqrt 2) = 2 * (b:ℝ) ^ 2 := by
      have : ((b:ℝ) * Real.sqrt 2) * ((b:ℝ) * Real.sqrt 2)
          = ((b:ℝ) * (b:ℝ)) * (Real.sqrt 2 * Real.sqrt 2) := by ring
      rw [this, h2]
      ring
    simp only [decide_eq_true_eq]
    constructor
    · intro h
      have h' : (a:ℝ) ^ 2 ≤ 2 * (b:ℝ) ^ 2 := by exact_mod_cast h
      have hsq : (-(a:ℝ)) * (-(a:ℝ)) ≤ ((b:ℝ) * Real.sqrt 2) * ((b:ℝ) * Real.sqrt 2) := by
        rw [hrw]
        nlinarith [h']
      have key := hiff.mpr hsq
      linarith
    · intro h
      have key : -(a:ℝ) ≤ (b:ℝ) * Real.sqrt 2 := by linarith
      have hsq := hiff.mp key
      rw [hrw] at hsq
      have : (a:ℝ) ^ 2 ≤ 2 * (b:ℝ) ^ 2 := by nlinarith [hsq]
      exact_mod_cast this
  · push_neg at ha hb
    have ha' : ((a:ℝ)) < 0 := by exact_mod_cast ha
    have hb' : ((b:ℝ)) < 0 := by exact_mod_cast hb
    have : (b:ℝ) * Real.sqrt 2 ≤ 0 := mul_nonpos_of_nonpos_of_nonneg (le_of_lt hb') hs
    simp only [Bool.false_eq_true, false_iff, not_le]
    linarith

theorem posb_core (a b : ℤ) :
    (if 0 ≤ a then
      (if 0 ≤ b then decide (0 < a ∨ 0 < b) else decide (2 * b ^ 2 < a ^ 2))
    else
      (if 0 ≤ b then decide (a ^ 2 < 2 * b ^ 2) else false)) = true ↔
    0 < (a : ℝ) + (b : ℝ) * Real.sqrt 2 := by
  have h2 := sqrt2_sq
  have hs : (0:ℝ) < Real.sqrt 2 := sqrt2_pos
  split_ifs with ha hb hb
  · have ha' : (0:ℝ) ≤ (a:ℝ) := by exact_mod_cast ha
    have hb' : (0:ℝ) ≤ (b:ℝ) := by exact_mod_cast hb
    simp only [decide_eq_true_eq]
    constructor
    · rintro (h | h)
      · have h' : (0:ℝ) < (a:ℝ) := by exact_mod_cast h
        have := mul_nonneg hb' (le_of_lt hs)
        linarith
      · have h' : (0:ℝ) < (b:ℝ) := by exact_mod_cast h
        have := mul_pos h' hs
        linarith
    · intro h
      by_contra hc
      push_neg at hc
      obtain ⟨h1, h2'⟩ := hc
      have ha0 : a = 0 := le_antisymm h1 ha
      have hb0 : b = 0 := le_antisymm h2' hb
      rw [ha0, hb0] at h
      norm_num at h
  · push_neg at hb
    have ha' : (0:ℝ) ≤ (a:ℝ) := by exact_mod_cast ha
    have hb' : ((b:ℝ)) < 0 := by exact_mod_cast hb
    have hnb : (0:ℝ) ≤ (-(b:ℝ)) * Real.sqrt 2 := mul_nonneg (by linarith) (le_of_lt hs)
    have hiff := mul_self_lt_mul_self_iff hnb ha'
    have hrw : ((-(b:ℝ)) * Real.sqrt 2) * ((-(b:ℝ)) * Real.sqrt 2) = 2 * (b:ℝ) ^ 2 := by
      have : ((-(b:ℝ)) * Real.sqrt 2) * ((-(b:ℝ)) * Real.sqrt 2)
          = ((b:ℝ) * (b:ℝ)) * (Real.sqrt 2 * Real.sqrt 2) := by ring
      rw [this, h2]
      ring
    simp only [decide_eq_true_eq]
    constructor
    · intro h
      have h' : 2 * (b:ℝ) ^ 2 < (a:ℝ) ^ 2 := by exact_mod_cast h
      have hsq : ((-(b:ℝ)) * Real.sqrt 2) * ((-(b:ℝ)) * Real.sqrt 2) < (a:ℝ) * (a:ℝ) := by
        rw [hrw]
        nlinarith [h']
      have key := hiff.mpr hsq
      linarith
    · intro h
      have key : (-(b:ℝ)) * Real.sqrt 2 < (a:ℝ) := by linarith
      have hsq := hiff.mp key
      rw [hrw] at hsq
      have : 2 * (b:ℝ) ^ 2 < (a:ℝ) ^ 2 := by nlinarith [hsq]
      exact_mod_cast this
  · push_neg at ha
    have ha' : ((a:ℝ)) < 0 := by exact_mod_cast ha
    have hb' : (0:ℝ) ≤ (b:ℝ) := by exact_mod_cast hb
    have hbs : (0:ℝ) ≤ (b:ℝ) * Real.sqrt 2 := mul_nonneg hb' (le_of_lt hs)
    have hiff := mul_self_lt_mul_self_iff (show (0:ℝ) ≤ -(a:ℝ) by linarith) hbs
    have hrw : ((b:ℝ) * Real.sqrt 2) * ((b:ℝ) * Real.sqrt 2) = 2 * (b:ℝ) ^ 2 := by
      have : ((b:ℝ) * Real.sqrt 2) * ((b:ℝ) * Real.sqrt 2)
          = ((b:ℝ) * (b:ℝ)) * (Real.sqrt 2 * Real.sqrt 2) := by ring
      rw [this, h2]
      ring
    simp only [decide_eq_true_eq]
    constructor
    · intro h
      have h' : (a:ℝ) ^ 2 < 2 * (b:ℝ) ^ 2 := by exact_mod_cast h
      have hsq : (-(a:ℝ)) * (-(a:ℝ)) < ((b:ℝ) * Real.sqrt 2) * ((b:ℝ) * Real.sqrt 2) := by
        rw [hrw]
        nlinarith [h']
      have key := hiff.mpr hsq
      linarith
    · intro h
      have key : -(a:ℝ) < (b:ℝ) * Real.sqrt 2 := by linarith
      have hsq := hiff.mp key
      rw [hrw] at hsq
      have : (a:ℝ) ^ 2 < 2 * (b:ℝ) ^ 2 := by nlinarith [hsq]
      exact_mod_cast this
  · push_neg at ha hb
    have ha' : ((a:ℝ)) < 0 := by exact_mod_cast ha
    have hb' : ((b:ℝ)) < 0 := by exact_mod_cast hb
    have : (b:ℝ) * Real.sqrt 2 ≤ 0 := mul_nonpos_of_nonpos_of_nonneg (le_of_lt hb') (le_of_lt hs)
    simp only [Bool.false_eq_true, false_iff, not_lt]
    linarith

theorem nonnegb_iff (x : Rt2) : x.nonnegb = true ↔ 0 ≤ x.toReal := by
  have hcore := nonnegb_core x.a x.b
  have hdp := den_cast_pos x
  constructor
  · intro h
    have := hcore.mp h
    exact div_nonneg this (le_of_lt hdp)
  · intro h
    apply hcore.mpr
    by_contra hc
    push_neg at hc
    have : x.toReal < 0 := div_neg_of_neg_of_pos hc hdp
    linarith [h]

theorem posb_iff (x : Rt2) : x.posb = true ↔ 0 < x.toReal := by
  have hcore := posb_core x.a x.b
  have hdp := den_cast_pos x
  constructor
  · intro h
    exact div_pos (hcore.mp h) hdp
  · intro h
    apply hcore.mpr
    by_contra hc
    push_neg at hc
    have : x.toReal ≤ 0 := div_nonpos_of_nonpos_of_nonneg hc (le_of_lt hdp)
    linarith [h]

theorem le_iff_toReal (x y : Rt2) : x ≤ y ↔ x.toReal ≤ y.toReal := by
  have h := nonnegb_iff (y - x)
  rw [toReal_sub] at h
  constructor
  · intro hle
    have := h.mp hle
    linarith
  · intro hle
    exact h.mpr (by linarith)

theorem lt_iff_toReal (x y : Rt2) : x < y ↔ x.toReal < y.toReal := by
  have h := posb_iff (y - x)
  rw [toReal_sub] at h
  constructor
  · intro hlt
    have := h.mp hlt
    linarith
  · intro hlt
    exact h.mpr (by linarith)

theorem lt_tr {x y z : Rt2} (hxy : x < y) (hyz : y < z) : x < z := by
  rw [lt_iff_toReal] at hxy hyz ⊢
  linarith

theorem lt_irr (x : Rt2) : ¬ x < x := by
  rw [lt_iff_toReal]
  simp

/-- Semantic equality of two ℚ[√2] values (the representation is not
normalized, so structural equality is finer than equality of values). -/
def eqv (x y : Rt2) : Prop := x ≤ y ∧ y ≤ x

instance (x y : Rt2) : Decidable (eqv x y) := inferInstanceAs (Decidable (_ ∧ _))

theorem eqv_iff_toReal (x y : Rt2) : eqv x y ↔ x.toReal = y.toReal := by
  unfold eqv
  rw [le_iff_toReal, le_iff_toReal]
  constructor
  · rintro ⟨h1, h2⟩
    linarith
  · intro h
    constructor <;> linarith [h]

end Rt2

/-!
## The data model

Coordinates are integer pairs `(row, col)`, exactly the `row`/`col` fields of
a `TileNode`.  In the TypeScript source, cells are objects owned by the grid
and compared by reference identity (`===`); since the grid owns exactly one
node per coordinate, node identity is coordinate equality in this embedding.
-/

/-- A grid position `(row, col)`. -/
abbrev Coord := ℤ × ℤ

/-- Static per-run data of a grid of tile nodes.  Modelled from the spec
(§3 Grid, §3 Cell static attributes): `numRows`/`numCols` fixed dimensions,
per-cell `reachable` flag and cost `multiplier`, and the designated
`startNode`/`targetNode`.  The `grid-2d.ts` source is not part of the
provided files; `findPath` only reads these fields. -/
structure Grid2D where
  numRows : ℤ
  numCols : ℤ
  reachable : Coord → Bool
  multiplier : Coord → ℚ
  startNode : Coord
  targetNode : Coord

/-- The transient search fields of one `TileNode` (spec §3 Cell transient
attributes): accumulated cost `g`, heuristic `h`, priority `f`, and the
`parent` back-reference (a coordinate, or `none`). -/
structure NodeState where
  g : Rt2
  h : Rt2
  f : Rt2
  parent : Option Coord
deriving DecidableEq, Repr

/-- The mutable state read and written by `findPath`: the transient fields of
every node (owned by the grid's cells, so they persist across runs) together
with the pathfinder's `_openList` and `_closedList`. -/
structure SearchState where
  nodes : Coord → NodeState
  openList : List Coord
  closedList : List Coord

/-- Heuristic signature `IHeuristic`: `(node, target) -> number`.  Nodes are
identified by their coordinates. -/
def IHeuristic := Coord → Coord → Rt2

/-- `AStarTiles.__diagonal`, the default heuristic:
`straight + (SQRT2 - 2) * diagonal` with `dx = |node.col - target.col|`,
`dy = |node.row - target.row|`. -/
def diagonalH : IHeuristic := fun node target =>
  let dx : ℤ := |node.2 - target.2|
  let dy : ℤ := |node.1 - target.1|
  let diagonal : ℤ := min dx dy
  let straight : ℤ := dx + dy
  Rt2.ofRat (straight : ℚ) + (Rt2.sqrt2 - Rt2.ofRat 2) * Rt2.ofRat (diagonal : ℚ)

/-- `0 ≤ row < numRows ∧ 0 ≤ col < numCols`. -/
def inBounds (g : Grid2D) (c : Coord) : Prop :=
  0 ≤ c.1 ∧ c.1 < g.numRows ∧ 0 ≤ c.2 ∧ c.2 < g.numCols

instance (g : Grid2D) (c : Coord) : Decidable (inBounds g c) :=
  inferInstanceAs (Decidable (_ ∧ _ ∧ _ ∧ _))

/-- The grid invariant from spec §3 Cell: every cost multiplier is positive. -/
def MultPos (g : Grid2D) : Prop := ∀ c : Coord, 0 < g.multiplier c

/-- The integers `lo, lo+1, ..., hi` (empty when `hi < lo`), the index range
of a `for (i = lo; i <= hi; ++i)` loop. -/
def rangeClosed (lo hi : ℤ) : List ℤ :=
  (List.range (hi + 1 - lo).toNat).map fun k : ℕ => lo + (k : ℤ)

/-- The coordinates visited by the nested neighbor loops of `findPath`:
rows `max 0 (row-1) .. min (numRows-1) (row+1)`, columns
`max 0 (col-1) .. min (numCols-1) (col+1)`, in loop order. -/
def neighborCoords (g : Grid2D) (node : Coord) : List Coord :=
  (rangeClosed (max 0 (node.1 - 1)) (min (g.numRows - 1) (node.1 + 1))).flatMap fun i =>
    (rangeClosed (max 0 (node.2 - 1)) (min (g.numCols - 1) (node.2 + 1))).map fun j => (i, j)

/-- Overwrite the transient fields of the node at `c`. -/
def SearchState.setNode (st : SearchState) (c : Coord) (ns : NodeState) : SearchState :=
  { st with nodes := fun x => if x = c then ns else st.nodes x }

/-- The skip condition of the neighbor loop (line 181): the examined cell is
the current node itself, or unreachable, or one of the two flanking
orthogonal cells of the move is unreachable (the corner-cutting guard). -/
def skipGuard (g : Grid2D) (node tc : Coord) : Prop :=
  tc = node ∨ g.reachable tc = false ∨ g.reachable (node.1, tc.2) = false ∨
    g.reachable (tc.1, node.2) = false

instance (g : Grid2D) (node tc : Coord) : Decidable (skipGuard g node tc) :=
  inferInstanceAs (Decidable (_ ∨ _ ∨ _ ∨ _))

/-- The `cost` local (lines 187–190): `1` for an orthogonal move, `SQRT2`
for a diagonal one. -/
def moveCost (node tc : Coord) : Rt2 :=
  if node.1 = tc.1 ∨ node.2 = tc.2 then 1 else Rt2.sqrt2

/-- The tentative `g` (line 192): `node.g + cost * temp.multiplier`. -/
def tentG (g : Grid2D) (node tc : Coord) (st : SearchState) : Rt2 :=
  (st.nodes node).g + moveCost node tc * Rt2.ofRat (g.multiplier tc)

/-- The tentative `h` (line 193). -/
def tentH (heur : IHeuristic) (g : Grid2D) (tc : Coord) : Rt2 :=
  heur tc g.targetNode

/-- The tentative `f` (line 194). -/
def tentF (heur : IHeuristic) (g : Grid2D) (node tc : Coord) (st : SearchState) : Rt2 :=
  tentG g node tc st + tentH heur g tc

/-- One iteration of the inner neighbor loop body of `findPath`
(lines 178–216 of `astar-tiles.ts`): skip `temp` if the guard fires;
otherwise compute the tentative `g/h/f` and either update an already-seen
node (only on strict `f` improvement) or initialize and push an unseen node
onto the open list. -/
def relaxOne (heur : IHeuristic) (g : Grid2D) (node : Coord) (st : SearchState) (tc : Coord) :
    SearchState :=
  if skipGuard g node tc then st
  else if tc ∈ st.openList ∨ tc ∈ st.closedList then
    if tentF heur g node tc st < (st.nodes tc).f then
      st.setNode tc ⟨tentG g node tc st, tentH heur g tc, tentF heur g node tc st, some node⟩
    else st
  else
    { st.setNode tc ⟨tentG g node tc st, tentH heur g tc, tentF heur g node tc st, some node⟩ with
        openList := st.openList ++ [tc] }

/-- The full nested neighbor loop for the current `node`. -/
def expand (heur : IHeuristic) (g : Grid2D) (node : Coord) (st : SearchState) : SearchState :=
  (neighborCoords g node).foldl (relaxOne heur g node) st

/-- Path reconstruction (lines 234–245): starting from the target, follow
`parent` links, prepending each to the accumulator, until the start node is
reached.  The accumulator always has the current node at its head.  `fuel`
bounds the number of steps; `none` models the non-terminating/crashing run
that a broken parent chain would produce in JavaScript. -/
def reconstruct (g : Grid2D) (st : SearchState) : ℕ → Coord → List Coord → Option (List Coord)
  | 0, _, _ => none
  | fuel + 1, node, path =>
    if node = g.startNode then some path
    else
      match (st.nodes node).parent with
      | none => none
      | some p => reconstruct g st fuel p (p :: path)

/-- The main `while (node !== this._targetNode)` loop (lines 166–232):
expand the neighbors of the current node, push it onto the closed list,
return the empty path if the open list is empty, otherwise sort the open
list by `f` (JavaScript's stable ascending sort) and shift its head as the
new current node.  `fuel` bounds the number of iterations. -/
def afterExpand (heur : IHeuristic) (g : Grid2D) (node : Coord) (st : SearchState) :
    SearchState :=
  let st1 := expand heur g node st
  { st1 with closedList := st1.closedList ++ [node] }

def findPathLoop (heur : IHeuristic) (g : Grid2D) :
    ℕ → Coord → SearchState → Option (List Coord × SearchState)
  | 0, _, _ => none
  | fuel + 1, node, st =>
    if node = g.targetNode then
      (reconstruct g st ((g.numRows * g.numCols).toNat + 1) node [node]).map fun p => (p, st)
    else
      let st2 : SearchState := afterExpand heur g node st
      if st2.openList = [] then some ([], st2)
      else
        match List.insertionSort (fun a b => (st2.nodes a).f ≤ (st2.nodes b).f) st2.openList with
        | [] => none
        | next :: rest => findPathLoop heur g fuel next { st2 with openList := rest }

/-- The entry code of `findPath` (lines 138–149): clear the open and closed
lists and set the start node's `g`, `h` and `f`.  No other node is touched;
in particular no `parent` field is reset. -/
def findPathInit (heur : IHeuristic) (g : Grid2D) (st : SearchState) : SearchState :=
  let st1 : SearchState := { st with openList := [], closedList := [] }
  let hv : Rt2 := heur g.startNode g.targetNode
  st1.setNode g.startNode ⟨0, hv, 0 + hv, (st1.nodes g.startNode).parent⟩

/-- `AStarTiles.findPath`, returning the path together with the final search
state.  The fuel `numRows*numCols + 1` is proved sufficient below; `none`
models a run that would not have terminated. -/
def findPathS (heur : IHeuristic) (g : Grid2D) (st : SearchState) :
    Option (List Coord × SearchState) :=
  findPathLoop heur g ((g.numRows * g.numCols).toNat + 1) g.startNode (findPathInit heur g st)

/-- `AStarTiles.findPath`: just the returned array of nodes. -/
def findPath (heur : IHeuristic) (g : Grid2D) (st : SearchState) : Option (List Coord) :=
  (findPathS heur g st).map Prod.fst

/-- The movement relation realized by the neighbor-loop guard: `c` is in the
clipped 3×3 block around `p`, distinct from `p`, reachable, and neither
flanking orthogonal cell of the move is unreachable. -/
def canStep (g : Grid2D) (p c : Coord) : Prop :=
  c ∈ neighborCoords g p ∧ c ≠ p ∧ g.reachable c = true ∧
    g.reachable (p.1, c.2) = true ∧ g.reachable (c.1, p.2) = true

instance (g : Grid2D) (p c : Coord) : Decidable (canStep g p c) :=
  inferInstanceAs (Decidable (_ ∧ _ ∧ _ ∧ _ ∧ _))

/-- Cost of one step from `a` into `b` as described by the spec (§4.2):
`1` for an orthogonal move, `√2` for a diagonal move, scaled by the
multiplier of the cell being entered. -/
def stepCost (g : Grid2D) (a b : Coord) : Rt2 :=
  (if a.1 = b.1 ∨ a.2 = b.2 then 1 else Rt2.sqrt2) * Rt2.ofRat (g.multiplier b)

/-- Sum of the per-step costs along a list of cells (spec §8, monotonicity
property: the total cost of a returned path). -/
def pathCost (g : Grid2D) : List Coord → Rt2
  | a :: b :: rest => stepCost g a b + pathCost g (b :: rest)
  | _ => 0

/-- A default / dummy search state: all transient fields zero, no parent,
empty working lists. -/
def initialState : SearchState :=
  ⟨fun _ => ⟨0, 0, 0, none⟩, [], []⟩

/-- The result of a terminating `findPath` run (path and final state),
defaulting to the empty path for the `none` case.  Used to state concrete
witnesses. -/
def fpResult (heur : IHeuristic) (g : Grid2D) (st : SearchState) : List Coord × SearchState :=
  (findPathS heur g st).getD ([], initialState)

/-!
## Basic facts about the embedding
-/

theorem mem_rangeClosed {lo hi i : ℤ} : i ∈ rangeClosed lo hi ↔ lo ≤ i ∧ i ≤ hi := by
  unfold rangeClosed
  rw [List.mem_map]
  constructor
  · rintro ⟨k, hk, rfl⟩
    rw [List.mem_range] at hk
    omega
  · rintro ⟨h1, h2⟩
    refine ⟨(i - lo).toNat, ?_, ?_⟩
    · rw [List.mem_range]
      omega
    · omega

theorem mem_neighborCoords {g : Grid2D} {p c : Coord} :
    c ∈ neighborCoords g p ↔
      (max 0 (p.1 - 1) ≤ c.1 ∧ c.1 ≤ min (g.numRows - 1) (p.1 + 1)) ∧
      (max 0 (p.2 - 1) ≤ c.2 ∧ c.2 ≤ min (g.numCols - 1) (p.2 + 1)) := by
  simp only [neighborCoords, List.mem_flatMap, List.mem_map, mem_rangeClosed]
  constructor
  · rintro ⟨i, hi, j, hj, rfl⟩
    exact ⟨hi, hj⟩
  · rintro ⟨h1, h2⟩
    exact ⟨c.1, h1, c.2, h2, rfl⟩

theorem neighbor_inBounds {g : Grid2D} {p c : Coord} (h : c ∈ neighborCoords g p) :
    inBounds g c := by
  rw [mem_neighborCoords] at h
  obtain ⟨⟨h1, h2⟩, h3, h4⟩ := h
  refine ⟨?_, ?_, ?_, ?_⟩ <;> omega

theorem setNode_nodes_self (st : SearchState) (c : Coord) (ns : NodeState) :
    (st.setNode c ns).nodes c = ns := by
  simp [SearchState.setNode]

theorem setNode_nodes_ne (st : SearchState) (c x : Coord) (ns : NodeState) (h : x ≠ c) :
    (st.setNode c ns).nodes x = st.nodes x := by
  simp [SearchState.setNode, h]

theorem setNode_openList (st : SearchState) (c : Coord) (ns : NodeState) :
    (st.setNode c ns).openList = st.openList := rfl

theorem setNode_closedList (st : SearchState) (c : Coord) (ns : NodeState) :
    (st.setNode c ns).closedList = st.closedList := rfl

theorem relaxOne_closedList (heur : IHeuristic) (g : Grid2D) (node : Coord) (st : SearchState)
    (tc : Coord) : (relaxOne heur g node st tc).closedList = st.closedList := by
  unfold relaxOne
  split_ifs <;> rfl

theorem expand_closedList (heur : IHeuristic) (g : Grid2D) (node : Coord) (st : SearchState) :
    (expand heur g node st).closedList = st.closedList := by
  unfold expand
  generalize neighborCoords g node = l
  induction l generalizing st with
  | nil => rfl
  | cons x xs ih =>
    simp only [List.foldl_cons]
    rw [ih, relaxOne_closedList]

/-- The positive real value of one step's cost term. -/
theorem moveCost_mul_pos {g : Grid2D} (hm : MultPos g) (node tc : Coord) :
    0 < ((moveCost node tc) * Rt2.ofRat (g.multiplier tc)).toReal := by
  rw [Rt2.toReal_mul, Rt2.toReal_ofRat]
  have hmul : (0:ℝ) < (g.multiplier tc : ℝ) := by exact_mod_cast hm tc
  have hcost : 0 < (moveCost node tc).toReal := by
    unfold moveCost
    split_ifs
    · rw [Rt2.toReal_one]
      norm_num
    · rw [Rt2.toReal_sqrt2]
      exact Rt2.sqrt2_pos
  positivity

/-- A cell incremented by a step cost strictly exceeds the base cell. -/
theorem tentG_gt {g : Grid2D} (hm : MultPos g) (node tc : Coord)
    (st : SearchState) : (st.nodes node).g < tentG g node tc st := by
  rw [Rt2.lt_iff_toReal]
  unfold tentG
  rw [Rt2.toReal_add]
  have := moveCost_mul_pos hm node tc
  linarith

/-- Cells considered by the search: the current node and the members of the
open and closed lists.  Exactly these cells have had their transient fields
written during the current run. -/
def Assigned (cur : Coord) (st : SearchState) (c : Coord) : Prop :=
  c = cur ∨ c ∈ st.openList ∨ c ∈ st.closedList

/-- The search invariant, holding at every loop-head with current node `cur`
(and preserved, in this exact form, across each neighbor relaxation). -/
structure AInv (heur : IHeuristic) (g : Grid2D) (cur : Coord) (st : SearchState) : Prop where
  startBounds : inBounds g g.startNode
  openNodup : st.openList.Nodup
  closedNodup : st.closedList.Nodup
  openClosed : ∀ c ∈ st.openList, c ∉ st.closedList
  curOpen : cur ∉ st.openList
  curClosed : cur ∉ st.closedList
  openBounds : ∀ c ∈ st.openList, inBounds g c
  closedBounds : ∀ c ∈ st.closedList, inBounds g c
  curBounds : inBounds g cur
  startSeen : g.startNode = cur ∨ g.startNode ∈ st.closedList
  openReach : ∀ c ∈ st.openList, g.reachable c = true
  closedReach : ∀ c ∈ st.closedList, c ≠ g.startNode → g.reachable c = true
  curReach : cur = g.startNode ∨ g.reachable cur = true
  hf : ∀ c, Assigned cur st c →
    (st.nodes c).h = heur c g.targetNode ∧ (st.nodes c).f = (st.nodes c).g + (st.nodes c).h
  par : ∀ c, Assigned cur st c → c ≠ g.startNode →
    ∃ p, (st.nodes c).parent = some p ∧ (p ∈ st.closedList ∨ p = cur) ∧ canStep g p c ∧
      (st.nodes p).g < (st.nodes c).g

theorem not_skipGuard {g : Grid2D} {node tc : Coord} (h : ¬ skipGuard g node tc) :
    tc ≠ node ∧ g.reachable tc = true ∧ g.reachable (node.1, tc.2) = true ∧
      g.reachable (tc.1, node.2) = true := by
  unfold skipGuard at h
  push_neg at h
  obtain ⟨h1, h2, h3, h4⟩ := h
  exact ⟨h1, by simpa using h2, by simpa using h3, by simpa using h4⟩

theorem lt_of_add_lt_add_same {x y h : Rt2} (hlt : x + h < y + h) : x < y := by
  rw [Rt2.lt_iff_toReal] at hlt ⊢
  rw [Rt2.toReal_add, Rt2.toReal_add] at hlt
  linarith

/-- The invariant is preserved by one relaxation of a neighbor `tc` of the
current node. -/
theorem relaxOne_inv {heur : IHeuristic} {g : Grid2D} {cur : Coord} {st : SearchState}
    (hm : MultPos g) (inv : AInv heur g cur st) {tc : Coord}
    (htc : tc ∈ neighborCoords g cur) :
    AInv heur g cur (relaxOne heur g cur st tc) := by
  unfold relaxOne
  split_ifs with hskip hseen himp
  · exact inv
  · -- already in the open or closed list, strictly better f: fields updated
    obtain ⟨hne, hr, hr1, hr2⟩ := not_skipGuard hskip
    have hcs : canStep g cur tc := ⟨htc, hne, hr, hr1, hr2⟩
    have hcurne : cur ≠ tc := fun hx => hne hx.symm
    have htcassigned : Assigned cur st tc := by
      rcases hseen with h | h
      · exact Or.inr (Or.inl h)
      · exact Or.inr (Or.inr h)
    refine { startBounds := inv.startBounds, openNodup := inv.openNodup,
             closedNodup := inv.closedNodup, openClosed := inv.openClosed,
             curOpen := inv.curOpen, curClosed := inv.curClosed,
             openBounds := inv.openBounds, closedBounds := inv.closedBounds,
             curBounds := inv.curBounds, startSeen := inv.startSeen,
             openReach := inv.openReach, closedReach := inv.closedReach,
             curReach := inv.curReach, hf := ?_, par := ?_ }
    · intro c hc
      by_cases hctc : c = tc
      · subst hctc
        rw [setNode_nodes_self]
        exact ⟨rfl, rfl⟩
      · rw [setNode_nodes_ne _ _ _ _ hctc]
        exact inv.hf c hc
    · intro c hc hcstart
      by_cases hctc : c = tc
      · subst hctc
        refine ⟨cur, ?_, Or.inr rfl, hcs, ?_⟩
        · rw [setNode_nodes_self]
        · rw [setNode_nodes_self, setNode_nodes_ne _ _ _ _ hcurne]
          exact tentG_gt hm cur c st
      · obtain ⟨p, hp, hpmem, hpstep, hplt⟩ := inv.par c hc hcstart
        rw [setNode_nodes_ne _ _ _ _ hctc]
        refine ⟨p, hp, hpmem, hpstep, ?_⟩
        by_cases hptc : p = tc
        · subst hptc
          rw [setNode_nodes_self]
          show tentG g cur p st < (st.nodes c).g
          have hfp := (inv.hf p htcassigned).2
          have himp2 : tentG g cur p st + heur p g.targetNode <
              (st.nodes p).g + (st.nodes p).h := by
            have := himp
            unfold tentF tentH at this
            rwa [hfp] at this
          rw [(inv.hf p htcassigned).1] at himp2
          exact Rt2.lt_tr (lt_of_add_lt_add_same himp2) hplt
        · rw [setNode_nodes_ne _ _ _ _ hptc]
          exact hplt
  · exact inv
  · -- unseen: initialize the node and push it onto the open list
    obtain ⟨hne, hr, hr1, hr2⟩ := not_skipGuard hskip
    push_neg at hseen
    obtain ⟨hto, htcl⟩ := hseen
    have hcs : canStep g cur tc := ⟨htc, hne, hr, hr1, hr2⟩
    have hcurne : cur ≠ tc := fun hx => hne hx.symm
    refine { startBounds := inv.startBounds, openNodup := ?_, closedNodup := inv.closedNodup,
             openClosed := ?_, curOpen := ?_, curClosed := inv.curClosed,
             openBounds := ?_, closedBounds := inv.closedBounds, curBounds := inv.curBounds,
             startSeen := inv.startSeen, openReach := ?_, closedReach := inv.closedReach,
             curReach := inv.curReach, hf := ?_, par := ?_ }
    · show (st.openList ++ [tc]).Nodup
      rw [List.nodup_append]
      refine ⟨inv.openNodup, List.nodup_singleton tc, ?_⟩
      intro a ha hb
      rw [List.mem_singleton] at hb
      subst hb
      exact hto ha
    · intro c hcm
      rcases List.mem_append.mp hcm with h | h
      · exact inv.openClosed c h
      · rw [List.mem_singleton] at h
        subst h
        exact htcl
    · intro hcm
      rcases List.mem_append.mp hcm with h | h
      · exact inv.curOpen h
      · rw [List.mem_singleton] at h
        exact hcurne h
    · intro c hcm
      rcases List.mem_append.mp hcm with h | h
      · exact inv.openBounds c h
      · rw [List.mem_singleton] at h
        subst h
        exact neighbor_inBounds htc
    · intro c hcm
      rcases List.mem_append.mp hcm with h | h
      · exact inv.openReach c h
      · rw [List.mem_singleton] at h
        subst h
        exact hr
    · intro c hc
      by_cases hctc : c = tc
      · subst hctc
        show ((st.setNode c _).nodes c).h = _ ∧ ((st.setNode c _).nodes c).f = _
        rw [setNode_nodes_self]
        exact ⟨rfl, rfl⟩
      · show ((st.setNode tc _).nodes c).h = _ ∧ ((st.setNode tc _).nodes c).f = _
        rw [setNode_nodes_ne _ _ _ _ hctc]
        apply inv.hf
        rcases hc with h | h | h
        · exact Or.inl h
        · rcases List.mem_append.mp h with h2 | h2
          · exact Or.inr (Or.inl h2)
          · rw [List.mem_singleton] at h2
            exact absurd h2 hctc
        · exact Or.inr (Or.inr h)
    · intro c hc hcstart
      by_cases hctc : c = tc
      · subst hctc
        refine ⟨cur, ?_, Or.inr rfl, hcs, ?_⟩
        · show ((st.setNode c _).nodes c).parent = some cur
          rw [setNode_nodes_self]
        · show ((st.setNode c _).nodes cur).g < ((st.setNode c _).nodes c).g
          rw [setNode_nodes_self, setNode_nodes_ne _ _ _ _ hcurne]
          exact tentG_gt hm cur c st
      · have hc' : Assigned cur st c := by
          rcases hc with h | h | h
          · exact Or.inl h
          · rcases List.mem_append.mp h with h2 | h2
            · exact Or.inr (Or.inl h2)
            · rw [List.mem_singleton] at h2
              exact absurd h2 hctc
          · exact Or.inr (Or.inr h)
        obtain ⟨p, hp, hpmem, hpstep, hplt⟩ := inv.par c hc' hcstart
        have hptc : p ≠ tc := by
          rcases hpmem with h | h
          · intro hx
            subst hx
            exact htcl h
          · intro hx
            rw [hx] at h
            exact hne h
        refine ⟨p, ?_, hpmem, hpstep, ?_⟩
        · show ((st.setNode tc _).nodes c).parent = some p
          rw [setNode_nodes_ne _ _ _ _ hctc]
          exact hp
        · show ((st.setNode tc _).nodes p).g < ((st.setNode tc _).nodes c).g
          rw [setNode_nodes_ne _ _ _ _ hctc, setNode_nodes_ne _ _ _ _ hptc]
          exact hplt

/-- The invariant is preserved by the whole neighbor loop of one iteration. -/
theorem expand_inv {heur : IHeuristic} {g : Grid2D} {cur : Coord} {st : SearchState}
    (hm : MultPos g) (inv : AInv heur g cur st) :
    AInv heur g cur (expand heur g cur st) := by
  unfold expand
  have main : ∀ l : List Coord, (∀ x ∈ l, x ∈ neighborCoords g cur) →
      ∀ s, AInv heur g cur s → AInv heur g cur (l.foldl (relaxOne heur g cur) s) := by
    intro l
    induction l with
    | nil =>
      intro _ s hs
      exact hs
    | cons x xs ih =>
      intro hsub s hs
      simp only [List.foldl_cons]
      exact ih (fun y hy => hsub y (List.mem_cons_of_mem _ hy)) _
        (relaxOne_inv hm hs (hsub x (List.mem_cons_self _ _)))
  exact main _ (fun x hx => hx) st inv

/-- Closing the current node and shifting the minimal-`f` member of the open
list re-establishes the invariant for the next iteration.  Only the fact that
the sorted open list is a permutation of the open list is needed. -/
theorem next_inv {heur : IHeuristic} {g : Grid2D} {cur : Coord} {st1 : SearchState}
    (inv : AInv heur g cur st1) {next : Coord} {rest : List Coord}
    (hperm : List.Perm (next :: rest) st1.openList) :
    AInv heur g next ⟨st1.nodes, rest, st1.closedList ++ [cur]⟩ := by
  have hnodup : (next :: rest).Nodup := (hperm.nodup_iff).mpr inv.openNodup
  have hnextopen : next ∈ st1.openList := hperm.subset (List.mem_cons_self _ _)
  have hrestopen : ∀ c ∈ rest, c ∈ st1.openList :=
    fun c hc => hperm.subset (List.mem_cons_of_mem _ hc)
  have hnextrest : next ∉ rest := (List.nodup_cons.mp hnodup).1
  have hrestnodup : rest.Nodup := (List.nodup_cons.mp hnodup).2
  have hmemclosed : ∀ c : Coord, c ∈ st1.closedList ++ [cur] ↔ c ∈ st1.closedList ∨ c = cur := by
    intro c
    rw [List.mem_append, List.mem_singleton]
  have hopennecur : ∀ c ∈ st1.openList, c ≠ cur := by
    intro c hc hx
    rw [hx] at hc
    exact inv.curOpen hc
  refine { startBounds := inv.startBounds, openNodup := hrestnodup, closedNodup := ?_,
           openClosed := ?_, curOpen := hnextrest, curClosed := ?_,
           openBounds := fun c hc => inv.openBounds c (hrestopen c hc),
           closedBounds := ?_, curBounds := inv.openBounds next hnextopen,
           startSeen := ?_, openReach := fun c hc => inv.openReach c (hrestopen c hc),
           closedReach := ?_, curReach := Or.inr (inv.openReach next hnextopen),
           hf := ?_, par := ?_ }
  · show (st1.closedList ++ [cur]).Nodup
    rw [List.nodup_append]
    refine ⟨inv.closedNodup, List.nodup_singleton cur, ?_⟩
    intro a ha hb
    rw [List.mem_singleton] at hb
    subst hb
    exact inv.curClosed ha
  · intro c hc hmem
    rcases (hmemclosed c).mp hmem with h | h
    · exact inv.openClosed c (hrestopen c hc) h
    · exact hopennecur c (hrestopen c hc) h
  · intro hmem
    rcases (hmemclosed next).mp hmem with h | h
    · exact inv.openClosed next hnextopen h
    · exact hopennecur next hnextopen h
  · intro c hc
    rcases (hmemclosed c).mp hc with h | h
    · exact inv.closedBounds c h
    · rw [h]
      exact inv.curBounds
  · rcases inv.startSeen with h | h
    · exact Or.inr ((hmemclosed _).mpr (Or.inr h))
    · exact Or.inr ((hmemclosed _).mpr (Or.inl h))
  · intro c hc hcstart
    rcases (hmemclosed c).mp hc with h | h
    · exact inv.closedReach c h hcstart
    · subst h
      rcases inv.curReach with h2 | h2
      · exact absurd h2 hcstart
      · exact h2
  · intro c hc
    apply inv.hf
    rcases hc with h | h | h
    · exact Or.inr (Or.inl (h ▸ hnextopen))
    · exact Or.inr (Or.inl (hrestopen c h))
    · rcases (hmemclosed c).mp h with h2 | h2
      · exact Or.inr (Or.inr h2)
      · exact Or.inl h2
  · intro c hc hcstart
    have hc' : Assigned cur st1 c := by
      rcases hc with h | h | h
      · exact Or.inr (Or.inl (h ▸ hnextopen))
      · exact Or.inr (Or.inl (hrestopen c h))
      · rcases (hmemclosed c).mp h with h2 | h2
        · exact Or.inr (Or.inr h2)
        · exact Or.inl h2
    obtain ⟨p, hp, hpmem, hpstep, hplt⟩ := inv.par c hc' hcstart
    refine ⟨p, hp, Or.inl ?_, hpstep, hplt⟩
    rcases hpmem with h | h
    · exact (hmemclosed p).mpr (Or.inl h)
    · exact (hmemclosed p).mpr (Or.inr h)

/-- `findPathInit` establishes the invariant for the first iteration. -/
theorem init_inv {heur : IHeuristic} {g : Grid2D} {st : SearchState}
    (hs : inBounds g g.startNode) :
    AInv heur g g.startNode (findPathInit heur g st) := by
  refine { startBounds := hs, openNodup := List.nodup_nil, closedNodup := List.nodup_nil,
           openClosed := ?_, curOpen := ?_, curClosed := ?_,
           openBounds := ?_, closedBounds := ?_, curBounds := hs,
           startSeen := Or.inl rfl, openReach := ?_, closedReach := ?_,
           curReach := Or.inl rfl, hf := ?_, par := ?_ }
  · intro c hc
    exact absurd hc (List.not_mem_nil c)
  · exact List.not_mem_nil _
  · exact List.not_mem_nil _
  · intro c hc
    exact absurd hc (List.not_mem_nil c)
  · intro c hc
    exact absurd hc (List.not_mem_nil c)
  · intro c hc
    exact absurd hc (List.not_mem_nil c)
  · intro c hc
    exact absurd hc (List.not_mem_nil c)
  · intro c hc
    rcases hc with h | h | h
    · subst h
      simp only [findPathInit]
      rw [setNode_nodes_self]
      exact ⟨rfl, rfl⟩
    · exact absurd h (List.not_mem_nil c)
    · exact absurd h (List.not_mem_nil c)
  · intro c hc hcstart
    rcases hc with h | h | h
    · exact absurd h hcstart
    · exact absurd h (List.not_mem_nil c)
    · exact absurd h (List.not_mem_nil c)

/-- The step relation along a reconstructed path: a legal move whose endpoint
has strictly larger accumulated cost. -/
def stepRel (g : Grid2D) (st : SearchState) (a b : Coord) : Prop :=
  canStep g a b ∧ (st.nodes a).g < (st.nodes b).g

/-- Number of searched cells strictly cheaper than `node`; the termination
measure of the parent walk. -/
def walkMeasure (st : SearchState) (cur : Coord) (node : Coord) : ℕ :=
  ((insert cur st.closedList.toFinset).filter
    (fun c => (st.nodes c).g < (st.nodes node).g)).card

theorem walkMeasure_lt {st : SearchState} {cur node p : Coord}
    (hp : p ∈ st.closedList ∨ p = cur) (hlt : (st.nodes p).g < (st.nodes node).g) :
    walkMeasure st cur p < walkMeasure st cur node := by
  apply Finset.card_lt_card
  rw [Finset.ssubset_def]
  constructor
  · intro c hc
    rw [Finset.mem_filter] at hc ⊢
    exact ⟨hc.1, Rt2.lt_tr hc.2 hlt⟩
  · intro hback
    have hpmem : p ∈ insert cur st.closedList.toFinset := by
      rw [Finset.mem_insert]
      rcases hp with h | h
      · exact Or.inr (List.mem_toFinset.mpr h)
      · exact Or.inl h
    have hpin : p ∈ (insert cur st.closedList.toFinset).filter
        (fun c => (st.nodes c).g < (st.nodes node).g) := by
      rw [Finset.mem_filter]
      exact ⟨hpmem, hlt⟩
    have := hback hpin
    rw [Finset.mem_filter] at this
    exact Rt2.lt_irr _ this.2

theorem toNat_mul_le (x y : ℤ) : x.toNat * y.toNat ≤ (x * y).toNat := by
  rcases le_or_lt 0 x with hx | hx
  · rcases le_or_lt 0 y with hy | hy
    · have hcast : ((x.toNat * y.toNat : ℕ) : ℤ) = x * y := by
        push_cast
        rw [Int.toNat_of_nonneg hx, Int.toNat_of_nonneg hy]
      have : (x * y).toNat = x.toNat * y.toNat := by
        rw [← hcast, Int.toNat_natCast]
      omega
    · have : y.toNat = 0 := Int.toNat_of_nonpos (le_of_lt hy)
      rw [this]
      simp
  · have : x.toNat = 0 := Int.toNat_of_nonpos (le_of_lt hx)
    rw [this]
    simp

/-- A duplicate-free list of in-bounds cells has at most `numRows * numCols`
elements. -/
theorem closed_card_le {g : Grid2D} {L : List Coord} (hnd : L.Nodup)
    (hb : ∀ c ∈ L, inBounds g c) : L.length ≤ (g.numRows * g.numCols).toNat := by
  have h1 : L.toFinset ⊆
      (Finset.Icc (0:ℤ) (g.numRows - 1)) ×ˢ (Finset.Icc (0:ℤ) (g.numCols - 1)) := by
    intro c hc
    rw [List.mem_toFinset] at hc
    obtain ⟨hb1, hb2, hb3, hb4⟩ := hb c hc
    rw [Finset.mem_product, Finset.mem_Icc, Finset.mem_Icc]
    exact ⟨⟨hb1, by omega⟩, hb3, by omega⟩
  have h2 := Finset.card_le_card h1
  rw [List.toFinset_card_of_nodup hnd, Finset.card_product, Int.card_Icc, Int.card_Icc] at h2
  have e1 : g.numRows - 1 + 1 - 0 = g.numRows := by ring
  have e2 : g.numCols - 1 + 1 - 0 = g.numCols := by ring
  rw [e1, e2] at h2
  exact le_trans h2 (toNat_mul_le _ _)

/-- The parent walk of `reconstruct` terminates and produces a chain from the
start node to the walk's origin, given the parent facts of the invariant. -/
theorem reconstruct_spec {g : Grid2D} {st : SearchState} {cur : Coord}
    (hp : ∀ c, Assigned cur st c → c ≠ g.startNode →
      ∃ p, (st.nodes c).parent = some p ∧ (p ∈ st.closedList ∨ p = cur) ∧ canStep g p c ∧
        (st.nodes p).g < (st.nodes c).g) :
    ∀ fuel node acc, Assigned cur st node → walkMeasure st cur node < fuel →
      List.Chain' (stepRel g st) (node :: acc) →
      ∃ l, reconstruct g st fuel node (node :: acc) = some l ∧
        l.head? = some g.startNode ∧
        List.Chain' (stepRel g st) l ∧
        l.getLast? = (node :: acc).getLast? := by
  intro fuel
  induction fuel with
  | zero =>
    intro node acc _ hlt _
    exact absurd hlt (Nat.not_lt_zero _)
  | succ n ih =>
    intro node acc hassigned hlt hchain
    by_cases hstart : node = g.startNode
    · refine ⟨node :: acc, ?_, ?_, hchain, rfl⟩
      · simp only [reconstruct]
        rw [if_pos hstart]
      · rw [hstart]
        rfl
    · obtain ⟨p, hpar, hpmem, hpstep, hplt⟩ := hp node hassigned hstart
      have hpassigned : Assigned cur st p := by
        rcases hpmem with h | h
        · exact Or.inr (Or.inr h)
        · exact Or.inl h
      have hm2 : walkMeasure st cur p < n := by
        have := walkMeasure_lt hpmem hplt
        omega
      have hchain2 : List.Chain' (stepRel g st) (p :: node :: acc) :=
        List.chain'_cons.mpr ⟨⟨hpstep, hplt⟩, hchain⟩
      obtain ⟨l, hrec, hhead, hch, hlast⟩ := ih p (node :: acc) hpassigned hm2 hchain2
      refine ⟨l, ?_, hhead, hch, ?_⟩
      · simp only [reconstruct]
        rw [if_neg hstart, hpar]
        exact hrec
      · rw [hlast, List.getLast?_cons_cons]

/-- At the moment the loop condition finds the target, path reconstruction
succeeds and yields a start-to-target chain. -/
theorem target_branch {heur : IHeuristic} {g : Grid2D} {cur : Coord} {st : SearchState}
    (inv : AInv heur g cur st) :
    ∃ l, reconstruct g st ((g.numRows * g.numCols).toNat + 1) cur [cur] = some l ∧
      l.head? = some g.startNode ∧ List.Chain' (stepRel g st) l ∧ l.getLast? = some cur := by
  have hmb : walkMeasure st cur cur < (g.numRows * g.numCols).toNat + 1 := by
    have hsub : (insert cur st.closedList.toFinset).filter
        (fun c => (st.nodes c).g < (st.nodes cur).g) ⊆ st.closedList.toFinset := by
      intro c hc
      rw [Finset.mem_filter, Finset.mem_insert] at hc
      obtain ⟨hc1 | hc1, hc2⟩ := hc
      · subst hc1
        exact absurd hc2 (Rt2.lt_irr _)
      · exact hc1
    have h1 : walkMeasure st cur cur ≤ st.closedList.toFinset.card :=
      Finset.card_le_card hsub
    rw [List.toFinset_card_of_nodup inv.closedNodup] at h1
    have h2 := closed_card_le inv.closedNodup inv.closedBounds
    omega
  obtain ⟨l, hrec, hhead, hch, hlast⟩ :=
    reconstruct_spec inv.par ((g.numRows * g.numCols).toNat + 1) cur [] (Or.inl rfl) hmb
      (List.chain'_singleton cur)
  exact ⟨l, hrec, hhead, hch, hlast⟩

theorem afterExpand_closedList (heur : IHeuristic) (g : Grid2D) (node : Coord)
    (st : SearchState) :
    (afterExpand heur g node st).closedList = st.closedList ++ [node] := by
  show (expand heur g node st).closedList ++ [node] = st.closedList ++ [node]
  rw [expand_closedList]

theorem findPathLoop_succ (heur : IHeuristic) (g : Grid2D) (n : ℕ) (node : Coord)
    (st : SearchState) :
    findPathLoop heur g (n + 1) node st =
      if node = g.targetNode then
        (reconstruct g st ((g.numRows * g.numCols).toNat + 1) node [node]).map fun p => (p, st)
      else
        if (afterExpand heur g node st).openList = [] then
          some ([], afterExpand heur g node st)
        else
          match List.insertionSort
              (fun a b => ((afterExpand heur g node st).nodes a).f ≤
                ((afterExpand heur g node st).nodes b).f)
              (afterExpand heur g node st).openList with
          | [] => none
          | next :: rest =>
              findPathLoop heur g n next { afterExpand heur g node st with openList := rest } :=
  rfl

/-- Shifting the head of the sorted open list after closing the current node
re-establishes the invariant, phrased on the states of `findPathLoop`. -/
theorem afterExpand_next_inv {heur : IHeuristic} {g : Grid2D} {cur : Coord} {st : SearchState}
    (hm : MultPos g) (inv : AInv heur g cur st) {next : Coord} {rest : List Coord}
    (hperm : List.Perm (next :: rest) (afterExpand heur g cur st).openList) :
    AInv heur g next { afterExpand heur g cur st with openList := rest } :=
  next_inv (expand_inv hm inv) hperm

theorem closed_push_nodup {L : List Coord} {cur : Coord} (h1 : L.Nodup) (h2 : cur ∉ L) :
    (L ++ [cur]).Nodup := by
  rw [List.nodup_append]
  refine ⟨h1, List.nodup_singleton cur, ?_⟩
  intro a ha hb
  rw [List.mem_singleton] at hb
  subst hb
  exact h2 ha

/-- Fuel `numRows*numCols + 1` always suffices: the loop terminates, because
each iteration pushes a fresh in-bounds cell onto the duplicate-free closed
list. -/
theorem loop_isSome {heur : IHeuristic} {g : Grid2D} (hm : MultPos g) :
    ∀ fuel cur st, AInv heur g cur st →
      (g.numRows * g.numCols).toNat + 1 ≤ fuel + st.closedList.length →
      (findPathLoop heur g fuel cur st).isSome := by
  intro fuel
  induction fuel with
  | zero =>
    intro cur st inv hfuel
    have := closed_card_le inv.closedNodup inv.closedBounds
    omega
  | succ n ih =>
    intro cur st inv hfuel
    rw [findPathLoop_succ]
    by_cases htgt : cur = g.targetNode
    · rw [if_pos htgt]
      obtain ⟨l, hrec, -, -, -⟩ := target_branch inv
      rw [hrec]
      simp
    · rw [if_neg htgt]
      by_cases hempty : (afterExpand heur g cur st).openList = []
      · rw [if_pos hempty]
        rfl
      · rw [if_neg hempty]
        cases hsort : List.insertionSort
            (fun a b => ((afterExpand heur g cur st).nodes a).f ≤
              ((afterExpand heur g cur st).nodes b).f)
            (afterExpand heur g cur st).openList with
        | nil =>
          exfalso
          have hperm := List.perm_insertionSort
            (fun a b => ((afterExpand heur g cur st).nodes a).f ≤
              ((afterExpand heur g cur st).nodes b).f)
            (afterExpand heur g cur st).openList
          rw [hsort] at hperm
          exact hempty (List.Perm.eq_nil hperm.symm)
        | cons next rest =>
          have hperm := List.perm_insertionSort
            (fun a b => ((afterExpand heur g cur st).nodes a).f ≤
              ((afterExpand heur g cur st).nodes b).f)
            (afterExpand heur g cur st).openList
          rw [hsort] at hperm
          have inv2 := afterExpand_next_inv hm inv hperm
          apply ih next _ inv2
          have hlen : ({ afterExpand heur g cur st with openList := rest } :
              SearchState).closedList.length = st.closedList.length + 1 := by
            show (afterExpand heur g cur st).closedList.length = _
            rw [afterExpand_closedList, List.length_append]
            rfl
          rw [hlen]
          omega

/-- Everything `findPathLoop` can return, under the invariant: the final
lists are duplicate-free, disjoint, and reachable, and any nonempty returned
path is a start-to-target chain of legal, strictly cost-increasing steps. -/
theorem loop_spec {heur : IHeuristic} {g : Grid2D} (hm : MultPos g) :
    ∀ fuel cur st, AInv heur g cur st →
      ∀ res, findPathLoop heur g fuel cur st = some res →
        (res.2.closedList.Nodup ∧ res.2.openList.Nodup ∧
          (∀ c ∈ res.2.openList, c ∉ res.2.closedList) ∧
          (∀ c ∈ res.2.openList, g.reachable c = true)) ∧
        (res.1 = [] ∨
          (res.1.head? = some g.startNode ∧ res.1.getLast? = some g.targetNode ∧
            List.Chain' (stepRel g res.2) res.1)) := by
  intro fuel
  induction fuel with
  | zero =>
    intro cur st _ res hres
    exact absurd hres (by simp [findPathLoop])
  | succ n ih =>
    intro cur st inv res hres
    rw [findPathLoop_succ] at hres
    by_cases htgt : cur = g.targetNode
    · rw [if_pos htgt] at hres
      obtain ⟨l, hrec, hhead, hch, hlast⟩ := target_branch inv
      rw [hrec, Option.map_some'] at hres
      obtain rfl : (l, st) = res := Option.some.inj hres
      refine ⟨⟨inv.closedNodup, inv.openNodup, inv.openClosed, inv.openReach⟩, Or.inr ?_⟩
      refine ⟨hhead, ?_, hch⟩
      rw [hlast, htgt]
    · rw [if_neg htgt] at hres
      by_cases hempty : (afterExpand heur g cur st).openList = []
      · rw [if_pos hempty] at hres
        obtain rfl : (([] : List Coord), afterExpand heur g cur st) = res :=
          Option.some.inj hres
        have inv1 := expand_inv hm inv
        refine ⟨⟨?_, ?_, ?_, ?_⟩, Or.inl rfl⟩
        · show ((afterExpand heur g cur st).closedList).Nodup
          rw [afterExpand_closedList]
          exact closed_push_nodup inv.closedNodup inv.curClosed
        · show ((afterExpand heur g cur st).openList).Nodup
          rw [hempty]
          exact List.nodup_nil
        · intro c hc
          rw [hempty] at hc
          exact absurd hc (List.not_mem_nil c)
        · intro c hc
          rw [hempty] at hc
          exact absurd hc (List.not_mem_nil c)
      · rw [if_neg hempty] at hres
        cases hsort : List.insertionSort
            (fun a b => ((afterExpand heur g cur st).nodes a).f ≤
              ((afterExpand heur g cur st).nodes b).f)
            (afterExpand heur g cur st).openList with
        | nil =>
          exfalso
          have hperm := List.perm_insertionSort
            (fun a b => ((afterExpand heur g cur st).nodes a).f ≤
              ((afterExpand heur g cur st).nodes b).f)
            (afterExpand heur g cur st).openList
          rw [hsort] at hperm
          exact hempty (List.Perm.eq_nil hperm.symm)
        | cons next rest =>
          rw [hsort] at hres
          have hperm := List.perm_insertionSort
            (fun a b => ((afterExpand heur g cur st).nodes a).f ≤
              ((afterExpand heur g cur st).nodes b).f)
            (afterExpand heur g cur st).openList
          rw [hsort] at hperm
          have inv2 := afterExpand_next_inv hm inv hperm
          exact ih next _ inv2 res hres

/-- Termination of `findPath` for any well-formed grid. -/
theorem findPathS_isSome (heur : IHeuristic) (g : Grid2D) (st : SearchState)
    (hs : inBounds g g.startNode) (hm : MultPos g) : (findPathS heur g st).isSome := by
  unfold findPathS
  apply loop_isSome hm _ _ _ (init_inv hs)
  have hcl : (findPathInit heur g st).closedList = [] := rfl
  rw [hcl]
  simp

/-- The loop specification instantiated at the entry point. -/
theorem findPathS_spec (heur : IHeuristic) (g : Grid2D) (st : SearchState)
    (hs : inBounds g g.startNode) (hm : MultPos g) :
    ∀ res, findPathS heur g st = some res →
      (res.2.closedList.Nodup ∧ res.2.openList.Nodup ∧
        (∀ c ∈ res.2.openList, c ∉ res.2.closedList) ∧
        (∀ c ∈ res.2.openList, g.reachable c = true)) ∧
      (res.1 = [] ∨
        (res.1.head? = some g.startNode ∧ res.1.getLast? = some g.targetNode ∧
          List.Chain' (stepRel g res.2) res.1)) :=
  loop_spec hm _ _ _ (init_inv hs)

theorem chain_reflTransGen {R : Coord → Coord → Prop} :
    ∀ (l : List Coord) (a b : Coord), List.Chain' R l → l.head? = some a →
      l.getLast? = some b → Relation.ReflTransGen R a b := by
  intro l
  induction l with
  | nil =>
    intro a b _ hh _
    exact absurd hh (by simp)
  | cons x xs ih =>
    intro a b hch hh hl
    have hax : a = x := by
      simp only [List.head?_cons, Option.some.injEq] at hh
      exact hh.symm
    subst hax
    cases xs with
    | nil =>
      have hab : a = b := by
        simp only [List.getLast?_singleton, Option.some.injEq] at hl
        exact hl
      subst hab
      exact Relation.ReflTransGen.refl
    | cons y ys =>
      obtain ⟨hxy, hch2⟩ := List.chain'_cons.mp hch
      rw [List.getLast?_cons_cons] at hl
      exact Relation.ReflTransGen.head hxy (ih y b hch2 (by simp) hl)

theorem chain_tail_prop {R : Coord → Coord → Prop} {Q : Coord → Prop}
    (hRQ : ∀ a b, R a b → Q b) :
    ∀ l : List Coord, List.Chain' R l → ∀ c ∈ l.tail, Q c := by
  intro l
  induction l with
  | nil =>
    intro _ c hc
    exact absurd hc (List.not_mem_nil c)
  | cons x xs ih =>
    intro hch c hc
    cases xs with
    | nil =>
      exact absurd hc (List.not_mem_nil c)
    | cons y ys =>
      obtain ⟨hxy, hch2⟩ := List.chain'_cons.mp hch
      rcases List.mem_cons.mp hc with rfl | hc2
      · exact hRQ _ _ hxy
      · exact ih hch2 c hc2

theorem chain_glt_nodup {st : SearchState} :
    ∀ l : List Coord, List.Chain' (fun a b => (st.nodes a).g < (st.nodes b).g) l →
      l.Nodup := by
  intro l hch
  haveI : IsTrans Coord (fun a b => (st.nodes a).g < (st.nodes b).g) :=
    ⟨fun _ _ _ => Rt2.lt_tr⟩
  have hpw := List.chain'_iff_pairwise.mp hch
  refine hpw.imp ?_
  intro a b hlt heq
  rw [heq] at hlt
  exact Rt2.lt_irr _ hlt

/-!
## Concrete grids and states used in witnesses and counterexamples
-/

/-- A 2×2 grid, all cells reachable, unit multipliers, start `(0,0)`,
target `(1,1)`. -/
def gridOpen2 : Grid2D := ⟨2, 2, fun _ => true, fun _ => 1, (0, 0), (1, 1)⟩

/-- A 2×2 grid whose start cell `(0,0)` is unreachable; all other cells are
reachable, unit multipliers, target `(1,1)`. -/
def gridBlockedStart : Grid2D :=
  ⟨2, 2, fun c => decide (c ≠ ((0:ℤ), (0:ℤ))), fun _ => 1, (0, 0), (1, 1)⟩

/-- A 1×2 grid whose target cell `(0,1)` is unreachable; start `(0,0)` is the
only reachable cell, unit multipliers. -/
def gridBlockedTarget : Grid2D :=
  ⟨1, 2, fun c => decide (c = ((0:ℤ), (0:ℤ))), fun _ => 1, (0, 0), (0, 1)⟩

/-- A fully unreachable 2×2 grid whose start and target are the same cell
`(1,1)`. -/
def gridSameCell : Grid2D := ⟨2, 2, fun _ => false, fun _ => 1, (1, 1), (1, 1)⟩

/-- A 1×2 grid, all cells reachable. -/
def gridRow2 : Grid2D := ⟨1, 2, fun _ => true, fun _ => 1, (0, 0), (0, 1)⟩

/-- The 3×4 grid of the `g`-accounting counterexample: cells `(0,3)` and
`(2,3)` unreachable, unit multipliers, start `(1,0)`, target `(1,3)`. -/
def gridStale : Grid2D :=
  ⟨3, 4, fun c => decide (c ≠ ((0:ℤ), (3:ℤ)) ∧ c ≠ ((2:ℤ), (3:ℤ))), fun _ => 1, (1, 0), (1, 3)⟩

/-- A nonnegative table heuristic driving the expansion order of `gridStale`:
`0` at `(0,1)` and `(1,2)`, `20` at the target `(1,3)`, `9` elsewhere.
It makes the cell `(1,2)` get expanded early through the expensive route via
`(0,1)`, then improves the closed cell `(1,2)` when `(1,1)` is expanded,
leaving the target's `g` (already set through `(1,2)`) stale. -/
def heurStale : IHeuristic := fun c _ =>
  if c = ((0:ℤ), (1:ℤ)) then 0
  else if c = ((1:ℤ), (2:ℤ)) then 0
  else if c = ((1:ℤ), (3:ℤ)) then Rt2.ofRat 20
  else Rt2.ofRat 9

/-- A search state carrying stale transient data from a previous run:
cell `(0,1)` has `g = 5`, `h = 7`, `f = 9` and a dangling predecessor. -/
def staleState : SearchState :=
  ⟨fun c => if c = ((0:ℤ), (1:ℤ)) then ⟨⟨5, 0, 0⟩, ⟨7, 0, 0⟩, ⟨9, 0, 0⟩, some (3, 3)⟩
    else ⟨0, 0, 0, none⟩, [], []⟩

/-- A search state whose start cell `(0,0)` carries a stale `g = 5`. -/
def staleStart : SearchState :=
  ⟨fun c => if c = ((0:ℤ), (0:ℤ)) then ⟨⟨5, 0, 0⟩, 0, 0, none⟩ else ⟨0, 0, 0, none⟩, [], []⟩

/-!
## The claims
-/

/-- C1: for every grid whose target cell is unreachable from the start cell
(no chain of guard-admissible moves connects them), `findPath` returns the
empty sequence as a normal result: when the open list empties before the
target is expanded, `[]` is returned, not an error. -/
theorem c1_unreachable_target_empty_path (heur : IHeuristic) (g : Grid2D) (st : SearchState)
    (hs : inBounds g g.startNode) (hm : MultPos g)
    (hnr : ¬ Relation.ReflTransGen (canStep g) g.startNode g.targetNode) :
    findPath heur g st = some [] := by
  have hS := findPathS_isSome heur g st hs hm
  rw [Option.isSome_iff_exists] at hS
  obtain ⟨res, hres⟩ := hS
  have hspec := findPathS_spec heur g st hs hm res hres
  rcases hspec.2 with hempty | ⟨hhead, hlast, hch⟩
  · unfold findPath
    rw [hres, Option.map_some', hempty]
  · exfalso
    apply hnr
    have hcs : List.Chain' (canStep g) res.1 := hch.imp (fun a b h => h.1)
    exact chain_reflTransGen res.1 _ _ hcs hhead hlast

theorem c1_witness :
    inBounds gridBlockedTarget gridBlockedTarget.startNode ∧ MultPos gridBlockedTarget ∧
    findPath diagonalH gridBlockedTarget initialState = some [] := by
  refine ⟨by decide, fun _ => one_pos, ?_⟩
  apply c1_unreachable_target_empty_path diagonalH gridBlockedTarget initialState (by decide)
    (fun _ => one_pos)
  intro h
  rcases Relation.ReflTransGen.cases_head h with heq | ⟨c, hc, -⟩
  · exact absurd heq (by decide)
  · obtain ⟨-, hne, hr, -, -⟩ := hc
    exact hne (of_decide_eq_true hr)

/-- C3: no returned path contains a corner-cutting diagonal step: whenever two
consecutive path cells differ in both row and column, both flanking
orthogonal cells are reachable. -/
theorem c3_no_corner_cutting (heur : IHeuristic) (g : Grid2D) (st : SearchState)
    (hs : inBounds g g.startNode) (hm : MultPos g) (p : List Coord)
    (hp : findPath heur g st = some p) :
    List.Chain' (fun a b => (a.1 ≠ b.1 ∧ a.2 ≠ b.2) →
      g.reachable (a.1, b.2) = true ∧ g.reachable (b.1, a.2) = true) p := by
  unfold findPath at hp
  rw [Option.map_eq_some'] at hp
  obtain ⟨res, hres, hp1⟩ := hp
  subst hp1
  have hspec := findPathS_spec heur g st hs hm res hres
  rcases hspec.2 with hempty | ⟨-, -, hch⟩
  · rw [hempty]
    exact List.chain'_nil
  · exact hch.imp (fun a b h _ => ⟨h.1.2.2.2.1, h.1.2.2.2.2⟩)

theorem c3_witness :
    inBounds gridOpen2 gridOpen2.startNode ∧ MultPos gridOpen2 ∧
    List.Chain' (fun a b => (a.1 ≠ b.1 ∧ a.2 ≠ b.2) →
      gridOpen2.reachable (a.1, b.2) = true ∧ gridOpen2.reachable (b.1, a.2) = true)
      [((0:ℤ), (0:ℤ)), ((1:ℤ), (1:ℤ))] :=
  ⟨by decide, fun _ => one_pos,
    c3_no_corner_cutting diagonalH gridOpen2 initialState (by decide) (fun _ => one_pos)
      [(0, 0), (1, 1)] (by decide)⟩

/-- C10: when the designated start and target are the same cell, `findPath`
returns the single-element path containing exactly that cell, regardless of
its reachability or cost multiplier: the loop is never entered and no
reachability check touches the start/target cell. -/
theorem c10_start_eq_target (heur : IHeuristic) (g : Grid2D) (st : SearchState)
    (hst : g.startNode = g.targetNode) :
    findPath heur g st = some [g.startNode] := by
  unfold findPath findPathS
  rw [findPathLoop_succ, if_pos hst]
  simp [reconstruct]

theorem c10_witness :
    gridSameCell.startNode = gridSameCell.targetNode ∧
    gridSameCell.reachable gridSameCell.startNode = false ∧
    findPath diagonalH gridSameCell initialState = some [gridSameCell.startNode] :=
  ⟨by decide, by decide, c10_start_eq_target diagonalH gridSameCell initialState (by decide)⟩

/-- C2 (counterexample): the claim "a cell with `reachable == false` is never
expanded into and never appears in a returned path" fails for the start
cell: on a 2×2 grid whose start `(0,0)` is unreachable, the search still
starts there, the diagonal guard does not consult the current cell itself,
and the returned path contains the unreachable start. -/
theorem c2_counterexample :
    gridBlockedStart.reachable gridBlockedStart.startNode = false ∧
    findPath diagonalH gridBlockedStart initialState = some [(0, 0), (1, 1)] ∧
    gridBlockedStart.startNode = ((0:ℤ), (0:ℤ)) := by
  decide

/-- C2 (amended): unreachable cells are never entered by the search — every
cell of a returned path other than the start cell is reachable, and every
member of the open list is reachable. -/
theorem c2_amended (heur : IHeuristic) (g : Grid2D) (st : SearchState)
    (hs : inBounds g g.startNode) (hm : MultPos g) (pr : List Coord × SearchState)
    (hp : findPathS heur g st = some pr) :
    (∀ c ∈ pr.1.tail, g.reachable c = true) ∧
    (∀ c ∈ pr.2.openList, g.reachable c = true) := by
  have hspec := findPathS_spec heur g st hs hm pr hp
  refine ⟨?_, hspec.1.2.2.2⟩
  rcases hspec.2 with hempty | ⟨-, -, hch⟩
  · rw [hempty]
    intro c hc
    exact absurd hc (List.not_mem_nil c)
  · exact chain_tail_prop (fun a b h => h.1.2.2.1) pr.1 hch

theorem c2_witness :
    inBounds gridBlockedStart gridBlockedStart.startNode ∧ MultPos gridBlockedStart ∧
    (∀ c ∈ (fpResult diagonalH gridBlockedStart initialState).1.tail,
      gridBlockedStart.reachable c = true) ∧
    (∀ c ∈ (fpResult diagonalH gridBlockedStart initialState).2.openList,
      gridBlockedStart.reachable c = true) := by
  have h := c2_amended diagonalH gridBlockedStart initialState (by decide) (fun _ => one_pos)
    (fpResult diagonalH gridBlockedStart initialState) (by rfl)
  exact ⟨by decide, fun _ => one_pos, h.1, h.2⟩

/-- C4 (counterexample): the claim that the final cell's `g` equals the sum
of per-step costs fails.  On `gridStale` with the nonnegative heuristic
`heurStale`, the returned path is `(1,0) (1,1) (1,2) (1,3)` whose per-step
cost sum is `3`, but the target's `g` is `1 + 2·√2`: the cell `(1,2)` was
first closed via an expensive route, the target's `g` was computed from that
stale value, and the later improvement of `(1,2)` (allowed by the strict-`f`
update of already-seen cells) never propagated to the target. -/
theorem c4_counterexample :
    findPath heurStale gridStale initialState = some [(1, 0), (1, 1), (1, 2), (1, 3)] ∧
    (findPathS heurStale gridStale initialState).map (fun r => (r.2.nodes (1, 3)).g) =
      some ⟨1, 2, 0⟩ ∧
    pathCost gridStale [(1, 0), (1, 1), (1, 2), (1, 3)] = ⟨3, 0, 0⟩ ∧
    ¬ Rt2.eqv ⟨1, 2, 0⟩ ⟨3, 0, 0⟩ := by
  decide

/-- C4 (amended): the `g` values along every returned path are strictly
increasing from start to target (in particular non-decreasing); the final
`g` need not equal the sum of per-step costs when a cell is improved after
having served as a predecessor. -/
theorem c4_amended (heur : IHeuristic) (g : Grid2D) (st : SearchState)
    (hs : inBounds g g.startNode) (hm : MultPos g) (pr : List Coord × SearchState)
    (hp : findPathS heur g st = some pr) :
    List.Chain' (fun a b => ((pr.2.nodes a).g).toReal < ((pr.2.nodes b).g).toReal) pr.1 := by
  have hspec := findPathS_spec heur g st hs hm pr hp
  rcases hspec.2 with hempty | ⟨-, -, hch⟩
  · rw [hempty]
    exact List.chain'_nil
  · exact hch.imp (fun a b h => (Rt2.lt_iff_toReal _ _).mp h.2)

theorem c4_witness :
    inBounds gridOpen2 gridOpen2.startNode ∧ MultPos gridOpen2 ∧
    List.Chain' (fun a b =>
      (((fpResult diagonalH gridOpen2 initialState).2.nodes a).g).toReal <
        (((fpResult diagonalH gridOpen2 initialState).2.nodes b).g).toReal)
      (fpResult diagonalH gridOpen2 initialState).1 :=
  ⟨by decide, fun _ => one_pos,
    c4_amended diagonalH gridOpen2 initialState (by decide) (fun _ => one_pos)
      (fpResult diagonalH gridOpen2 initialState) (by rfl)⟩

/-- C5: for a neighbor `tc` of the current node that passes the skip guard
and is already in the open or closed list, its `predecessor`, `g`, `h`, `f`
fields are reassigned exactly when the tentative `f` computed through the
current node is strictly smaller than its stored `f`; otherwise the whole
search state is left unchanged. -/
theorem c5_update_iff_improvement (heur : IHeuristic) (g : Grid2D) (node tc : Coord)
    (st : SearchState) (hguard : ¬ skipGuard g node tc)
    (hseen : tc ∈ st.openList ∨ tc ∈ st.closedList) :
    (tentF heur g node tc st < (st.nodes tc).f →
      relaxOne heur g node st tc = st.setNode tc
        ⟨tentG g node tc st, tentH heur g tc, tentF heur g node tc st, some node⟩) ∧
    (¬ tentF heur g node tc st < (st.nodes tc).f →
      relaxOne heur g node st tc = st) := by
  constructor
  · intro h
    unfold relaxOne
    rw [if_neg hguard, if_pos hseen, if_pos h]
  · intro h
    unfold relaxOne
    rw [if_neg hguard, if_pos hseen, if_neg h]

/-- A one-row state for the C5 witness: `(0,1)` sits on the open list with
`f = 9`. -/
def seenState : SearchState :=
  ⟨fun c => if c = ((0:ℤ), (1:ℤ)) then ⟨⟨9, 0, 0⟩, 0, ⟨9, 0, 0⟩, none⟩ else ⟨0, 0, 0, none⟩,
    [(0, 1)], []⟩

theorem c5_witness :
    ¬ skipGuard gridRow2 (0, 0) (0, 1) ∧
    ((0, 1) ∈ seenState.openList ∨ (0, 1) ∈ seenState.closedList) ∧
    ((tentF diagonalH gridRow2 (0, 0) (0, 1) seenState < (seenState.nodes (0, 1)).f →
      relaxOne diagonalH gridRow2 (0, 0) seenState (0, 1) = seenState.setNode (0, 1)
        ⟨tentG gridRow2 (0, 0) (0, 1) seenState, tentH diagonalH gridRow2 (0, 1),
          tentF diagonalH gridRow2 (0, 0) (0, 1) seenState, some (0, 0)⟩) ∧
    (¬ tentF diagonalH gridRow2 (0, 0) (0, 1) seenState < (seenState.nodes (0, 1)).f →
      relaxOne diagonalH gridRow2 (0, 0) seenState (0, 1) = seenState)) :=
  ⟨by decide, by decide,
    c5_update_iff_improvement diagonalH gridRow2 (0, 0) (0, 1) seenState (by decide) (by decide)⟩

/-- C6 (counterexample): the transient fields of the grid's cells are NOT
reset at the start of a run.  With a stale state in which cell `(0,1)`
carries `g = 5` and a dangling predecessor, the state right after
`findPath`'s initialization (before any expansion) still carries them. -/
theorem c6_counterexample :
    ((findPathInit diagonalH gridRow2 staleState).nodes (0, 1)).g = ⟨5, 0, 0⟩ ∧
    ¬ Rt2.eqv ⟨5, 0, 0⟩ 0 ∧
    ((findPathInit diagonalH gridRow2 staleState).nodes (0, 1)).parent = some (3, 3) := by
  decide

/-- C6 (amended): at the start of a run, only the open and closed working
lists are cleared and the start cell's `g`, `h`, `f` are set (to `0`, the
heuristic value, and their sum); every other cell keeps its previous
transient fields, and even the start cell's predecessor is not reset. -/
theorem c6_amended (heur : IHeuristic) (g : Grid2D) (st : SearchState) :
    (findPathInit heur g st).openList = [] ∧ (findPathInit heur g st).closedList = [] ∧
    (∀ c : Coord, c ≠ g.startNode → (findPathInit heur g st).nodes c = st.nodes c) ∧
    (findPathInit heur g st).nodes g.startNode =
      ⟨0, heur g.startNode g.targetNode, 0 + heur g.startNode g.targetNode,
        (st.nodes g.startNode).parent⟩ := by
  refine ⟨rfl, rfl, ?_, ?_⟩
  · intro c hc
    simp only [findPathInit]
    rw [setNode_nodes_ne _ _ _ _ hc]
  · simp only [findPathInit]
    rw [setNode_nodes_self]

theorem c6_witness :
    ((0:ℤ), (1:ℤ)) ≠ gridRow2.startNode ∧
    (findPathInit diagonalH gridRow2 staleState).nodes (0, 1) = staleState.nodes (0, 1) :=
  ⟨by decide, (c6_amended diagonalH gridRow2 staleState).2.2.1 (0, 1) (by decide)⟩

/-- C7 (counterexample): `findPath` does not validate its preconditions and
never fails with `InvalidState`: on a grid whose target is unreachable it
runs the search and returns the empty path as a normal result, and it
mutates the search state (the start cell's stale `g = 5` is overwritten
with `0` by the unconditional initialization) before any check could
happen. -/
theorem c7_counterexample :
    gridBlockedTarget.reachable gridBlockedTarget.targetNode = false ∧
    findPath diagonalH gridBlockedTarget staleStart = some [] ∧
    (staleStart.nodes gridBlockedTarget.startNode).g = ⟨5, 0, 0⟩ ∧
    ((findPathInit diagonalH gridBlockedTarget staleStart).nodes
      gridBlockedTarget.startNode).g = 0 := by
  decide

/-- C7 (amended): `findPath` performs no validation at all: for every grid
and state — reachable or not — it unconditionally overwrites the start
cell's `g`, `h` and `f` before anything else; there is no `InvalidState`
failure path. -/
theorem c7_amended (heur : IHeuristic) (g : Grid2D) (st : SearchState) :
    ((findPathInit heur g st).nodes g.startNode).g = 0 ∧
    ((findPathInit heur g st).nodes g.startNode).h = heur g.startNode g.targetNode ∧
    ((findPathInit heur g st).nodes g.startNode).f = 0 + heur g.startNode g.targetNode := by
  simp only [findPathInit]
  rw [setNode_nodes_self]
  exact ⟨rfl, rfl, rfl⟩

/-- C8: `findPath` terminates on every well-formed grid: the fuel
`numRows*numCols + 1` baked into the embedding is never exhausted, because
each loop iteration moves one fresh cell onto the duplicate-free closed
list; each cell enters the open list at most once and the closed list at
most once (the final lists are duplicate-free and disjoint). -/
theorem c8_terminates (heur : IHeuristic) (g : Grid2D) (st : SearchState)
    (hs : inBounds g g.startNode) (hm : MultPos g) :
    (findPathS heur g st).isSome ∧
    ∀ pr : List Coord × SearchState, findPathS heur g st = some pr →
      pr.2.closedList.Nodup ∧ pr.2.openList.Nodup ∧
        ∀ c ∈ pr.2.openList, c ∉ pr.2.closedList := by
  refine ⟨findPathS_isSome heur g st hs hm, ?_⟩
  intro pr hpr
  have hspec := findPathS_spec heur g st hs hm pr hpr
  exact ⟨hspec.1.1, hspec.1.2.1, hspec.1.2.2.1⟩

theorem c8_witness :
    inBounds gridOpen2 gridOpen2.startNode ∧ MultPos gridOpen2 ∧
    (findPathS diagonalH gridOpen2 initialState).isSome ∧
    (fpResult diagonalH gridOpen2 initialState).2.closedList.Nodup := by
  have h := c8_terminates diagonalH gridOpen2 initialState (by decide) (fun _ => one_pos)
  exact ⟨by decide, fun _ => one_pos, h.1,
    (h.2 (fpResult diagonalH gridOpen2 initialState) (by rfl)).1⟩

/-- C9: when the search reaches the target, the predecessor chain is acyclic
and ends at the start cell: reconstruction terminates (the embedding's fuel
is proved sufficient, so `findPath` returns `some`), and the returned path
runs from the start to the target with no repeated cell. -/
theorem c9_reconstruction (heur : IHeuristic) (g : Grid2D) (st : SearchState)
    (hs : inBounds g g.startNode) (hm : MultPos g) (pr : List Coord × SearchState)
    (hp : findPathS heur g st = some pr) (hne : pr.1 ≠ []) :
    pr.1.head? = some g.startNode ∧ pr.1.getLast? = some g.targetNode ∧ pr.1.Nodup := by
  have hspec := findPathS_spec heur g st hs hm pr hp
  rcases hspec.2 with hempty | ⟨hh, hl, hch⟩
  · exact absurd hempty hne
  · refine ⟨hh, hl, ?_⟩
    apply chain_glt_nodup pr.1
    exact hch.imp (fun a b h => h.2)

theorem c9_witness :
    inBounds gridOpen2 gridOpen2.startNode ∧ MultPos gridOpen2 ∧
    (fpResult diagonalH gridOpen2 initialState).1 ≠ [] ∧
    (fpResult diagonalH gridOpen2 initialState).1.head? = some gridOpen2.startNode ∧
    (fpResult diagonalH gridOpen2 initialState).1.getLast? = some gridOpen2.targetNode ∧
    (fpResult diagonalH gridOpen2 initialState).1.Nodup := by
  have h := c9_reconstruction diagonalH gridOpen2 initialState (by decide) (fun _ => one_pos)
    (fpResult diagonalH gridOpen2 initialState) (by rfl) (by decide)
  exact ⟨by decide, fun _ => one_pos, by decide, h.1, h.2.1, h.2.2⟩
